import Mathlib

set_option maxRecDepth 8000

/-!
Shallow embedding of the CAN worst-case-response-time analyzer and the
simulated-annealing priority searcher (Hw1/can_wcrt_analysis.py and
Hw2/main.py).  Machine floats are modelled by exact rationals; the
fixed-point loop, which the source writes as `while True`, is modelled
with explicit fuel returning `Option`.
-/

/-- A CAN message: `Message.__init__` stores an integer priority, a real
transmission time and an integer period (no validation is performed). -/
structure CANMessage where
  priority : Int
  trans_time : Rat
  period : Int
deriving DecidableEq, Repr

/-- Construction of a message from a descriptor (`Message.__init__` /
`CANMessage.__init__`): the fields are stored as given, unconditionally. -/
def mkMessage (p : Int) (t : Rat) (per : Int) : CANMessage :=
  ⟨p, t, per⟩

/-- The bus/controller: a scalar `tau` and an ordered list of messages. -/
structure CANBus where
  tau : Rat
  messages : List CANMessage
deriving DecidableEq, Repr

/-- Python indexing `self.messages[index]` (valid indices in all uses). -/
def msgAt (bus : CANBus) (idx : Nat) : CANMessage :=
  bus.messages.getD idx ⟨0, 0, 0⟩

/-- Python `max(iterable, default=0)`. -/
def maxD0 : List Rat → Rat
  | [] => 0
  | x :: xs => xs.foldl max x

/-- Source `get_max_blocking_time` / `get_longest_blocking`: the largest
transmission time among messages whose priority value is greater than or
equal to that of the message at `idx` (this matches the message itself). -/
def getMaxBlockingTime (bus : CANBus) (idx : Nat) : Rat :=
  maxD0 ((bus.messages.filter
    (fun m => decide ((msgAt bus idx).priority ≤ m.priority))).map
      (fun m => m.trans_time))

/-- The loop body's right-hand side: blocking plus interference from all
strictly higher-priority messages,
`block + Σ m.trans_time * ceil((wt + tau) / m.period)`. -/
def interference (bus : CANBus) (idx : Nat) (wt : Rat) : Rat :=
  getMaxBlockingTime bus idx +
    ((bus.messages.filter
      (fun m => decide (m.priority < (msgAt bus idx).priority))).map
        (fun m => m.trans_time * ((⌈(wt + bus.tau) / (m.period : Rat)⌉ : Int) : Rat))).sum

/-- The `while True` fixed-point loop of `compute_waiting_time` /
`get_waiting_time`, with explicit fuel.  Returns `some 0` on the
not-schedulable exit, `some wt` on convergence, `none` when fuel runs out. -/
def waitLoop (bus : CANBus) (idx : Nat) : Nat → Rat → Option Rat
  | 0, _ => none
  | fuel + 1, wt =>
    if ((msgAt bus idx).period : Rat) <
        interference bus idx wt + (msgAt bus idx).trans_time then some 0
    else if wt = interference bus idx wt then some wt
    else waitLoop bus idx fuel (interference bus idx wt)

/-- Source `compute_waiting_time` / `get_waiting_time`: run the fixed-point loop
starting from the blocking time. -/
def getWaitingTime (bus : CANBus) (idx : Nat) (fuel : Nat) : Option Rat :=
  waitLoop bus idx fuel (getMaxBlockingTime bus idx)

/-- Source `compute_single_wcrt` / `compute_worst_case_response_time`: `-1` when
the waiting time is the `0` sentinel, otherwise waiting time plus the
message's own transmission time. -/
def computeSingleWCRT (bus : CANBus) (idx : Nat) (fuel : Nat) : Option Rat :=
  (getWaitingTime bus idx fuel).map
    (fun wt => if wt = 0 then -1 else wt + (msgAt bus idx).trans_time)

/-- Scenario A instance: one message, priority 1, transmission time 1, period 10, tau 0. -/
def busA : CANBus := ⟨0, [⟨1, 1, 10⟩]⟩

/-- Scenario B instance: (priority 1, t=2, T=5) and (priority 2, t=2, T=20), tau 0. -/
def busB : CANBus := ⟨0, [⟨1, 2, 5⟩, ⟨2, 2, 20⟩]⟩

/-- The loop body of `compute_total_wcrt`, folded over the remaining
indices with the running total and the count of unschedulable messages. -/
def totalAux (bus : CANBus) (fuel : Nat) : List Nat → Rat → Nat → Option (Rat × Nat)
  | [], t, ns => some (t, ns)
  | i :: rest, t, ns =>
    match computeSingleWCRT bus i fuel with
    | none => none
    | some rt =>
      if rt < 0 then totalAux bus fuel rest t (ns + 1)
      else totalAux bus fuel rest (t + rt) ns

/-- Source `compute_total_wcrt`: total WCRT of the schedulable messages and the
count of unschedulable ones. -/
def computeTotalWCRT (bus : CANBus) (fuel : Nat) : Option (Rat × Nat) :=
  totalAux bus fuel (List.range bus.messages.length) 0 0

/-- Source `update_priorities`: `for msg, p in zip(self.messages, seq): msg.priority = p`;
messages beyond the length of `seq` keep their old priority. -/
def updatePriorities : List CANMessage → List Int → List CANMessage
  | [], _ => []
  | ms, [] => ms
  | m :: ms, p :: ps => { m with priority := p } :: updatePriorities ms ps

/-- The bus after the optional positional priority update done at the top
of `get_cost`. -/
def applySeq (bus : CANBus) : Option (List Int) → CANBus
  | none => bus
  | some s => ⟨bus.tau, updatePriorities bus.messages s⟩

/-- Source `get_cost`: optionally update priorities, then
`cost = total + non_sched * penalty`, returning also `non_sched == 0`. -/
def getCost (bus : CANBus) (seq : Option (List Int)) (penalty : Rat) (fuel : Nat) :
    Option (Rat × Bool) :=
  match computeTotalWCRT (applySeq bus seq) fuel with
  | none => none
  | some (t, ns) => some (t + ns * penalty, ns == 0)

/-- Sum of the WCRTs of exactly the schedulable messages (per-message
analysis returned a non-negative response time). -/
def schedSum (bus : CANBus) (fuel : Nat) : Rat :=
  (((List.range bus.messages.length).filterMap
    (fun i => (computeSingleWCRT bus i fuel).bind
      (fun r => if r < 0 then none else some r)))).sum

/-- Number of messages whose per-message analysis reported not schedulable. -/
def unschedCount (bus : CANBus) (fuel : Nat) : Nat :=
  ((List.range bus.messages.length).countP
    (fun i => match computeSingleWCRT bus i fuel with
      | some r => decide (r < 0)
      | none => false))

/-- Source `swap_list`: copy of `seq` with positions `i` and `j` exchanged. -/
def swapList (seq : List Int) (i j : Nat) : List Int :=
  (seq.set i (seq.getD j 0)).set j (seq.getD i 0)

/-- The acceptance test the source applies to a worsening candidate:
`constant * prob < prob * exp(-diff / T)` with `constant = 100000`
(`c`, `u`, `diff` and `T` are the rationals modelling the floats). -/
noncomputable def saAccept (c u diff T : Rat) : Prop :=
  (c : Real) * (u : Real) < (u : Real) * Real.exp (-(diff : Real) / (T : Real))

/-- Modelled from the spec: the canonical Metropolis criterion the spec
prescribes for the acceptance step (draw u uniform in [0,1), accept iff
u < exp(-diff / T)); the source's `simulated_annealing` does not contain
this test. -/
noncomputable def metropolisAccept (u diff T : Rat) : Prop :=
  (u : Real) < Real.exp (-(diff : Real) / (T : Real))

/-- The state carried across iterations of the annealing loop: the
controller's (serially mutated) message list, the current and best
priority sequences, and the temperature. -/
structure SAState where
  msgs : List CANMessage
  current : List Int
  best : List Int
  T : Rat
deriving DecidableEq, Repr

open Classical in
/-- One iteration of the `while T > T_end` body of `simulated_annealing`:
swap two positions of the current sequence, evaluate the three costs (each
call re-applies its sequence to the shared message list), update `best`
when the candidate is feasible and strictly cheaper, update `current` by
the acceptance rule, cool the temperature.  `none` when a cost evaluation
runs out of fuel. -/
noncomputable def saStep (tau penalty cooling : Rat) (fuel : Nat) (ch : Nat × Nat × Rat)
    (s : SAState) : Option SAState :=
  let candidate := swapList s.current ch.1 ch.2.1
  let m1 := updatePriorities s.msgs s.current
  match computeTotalWCRT ⟨tau, m1⟩ fuel with
  | none => none
  | some (t1, ns1) =>
    let costCurrent := t1 + ns1 * penalty
    let m2 := updatePriorities m1 candidate
    match computeTotalWCRT ⟨tau, m2⟩ fuel with
    | none => none
    | some (t2, ns2) =>
      let costCand := t2 + ns2 * penalty
      let m3 := updatePriorities m2 s.best
      match computeTotalWCRT ⟨tau, m3⟩ fuel with
      | none => none
      | some (t3, ns3) =>
        let costBest := t3 + ns3 * penalty
        let diff := costCand - costCurrent
        let best' := if ns2 = 0 ∧ costCand < costBest then candidate else s.best
        let current' :=
          if diff ≤ 0 then candidate
          else if saAccept 100000 ch.2.2 diff s.T then candidate else s.current
        some ⟨m3, current', best', s.T * cooling⟩

/-- The `while T > T_end` loop of `simulated_annealing`, driven by the
trace of random draws (two positions and one uniform value per
iteration). -/
noncomputable def saLoop (tau penalty cooling Tend : Rat) (fuel : Nat) :
    List (Nat × Nat × Rat) → SAState → Option SAState
  | trace, s =>
    if s.T ≤ Tend then some s
    else
      match trace with
      | [] => some s
      | ch :: rest =>
        match saStep tau penalty cooling fuel ch s with
        | none => none
        | some s' => saLoop tau penalty cooling Tend fuel rest s'

/-- Source `simulated_annealing`: start from the messages' own priorities in
construction order (`current_seq = best_seq = [m.priority for m in messages]`),
run the annealing loop with `penalty = 150`, return the best sequence. -/
noncomputable def simulatedAnnealing (bus : CANBus) (Tstart Tend cooling : Rat)
    (fuel : Nat) (trace : List (Nat × Nat × Rat)) : Option (List Int) :=
  let start := bus.messages.map (fun m => m.priority)
  (saLoop bus.tau 150 cooling Tend fuel trace ⟨bus.messages, start, start, Tstart⟩).map
    (fun s => s.best)

/-- Cost of a priority sequence applied to a message list, as `get_cost`
computes it for the annealing loop. -/
def seqCost (tau penalty : Rat) (fuel : Nat) (msgs : List CANMessage) (seq : List Int) :
    Option Rat :=
  (computeTotalWCRT ⟨tau, updatePriorities msgs seq⟩ fuel).map
    (fun p => p.1 + p.2 * penalty)

/-- Whether a priority sequence applied to a message list makes every
message schedulable (the `non_sched == 0` flag of `get_cost`). -/
def seqAllSched (tau : Rat) (fuel : Nat) (msgs : List CANMessage) (seq : List Int) :
    Option Bool :=
  (computeTotalWCRT ⟨tau, updatePriorities msgs seq⟩ fuel).map (fun p => p.2 == 0)

/-- Ceiling of a rational in terms of the floor, used so that concrete
ceilings evaluate under `norm_num`. -/
theorem ceil_as_floor (x : Rat) : (⌈x⌉ : Int) = -⌊-x⌋ := by
  rw [Int.floor_neg]; ring

/-- Adding fuel does not change an already-returned result of the
fixed-point loop. -/
theorem waitLoop_fuel_add (bus : CANBus) (idx : Nat) :
    ∀ fuel wt r, waitLoop bus idx fuel wt = some r →
      ∀ k, waitLoop bus idx (fuel + k) wt = some r := by
  intro fuel
  induction fuel with
  | zero => intro wt r h k; simp [waitLoop] at h
  | succ n ih =>
    intro wt r h k
    rw [show n + 1 + k = (n + k) + 1 by omega]
    rw [waitLoop] at h ⊢
    by_cases h1 : ((msgAt bus idx).period : Rat) <
        interference bus idx wt + (msgAt bus idx).trans_time
    · rw [if_pos h1] at h ⊢
      exact h
    · by_cases h2 : wt = interference bus idx wt
      · rw [if_neg h1, if_pos h2] at h ⊢
        exact h
      · rw [if_neg h1, if_neg h2] at h ⊢
        exact ih _ _ h k

/-- The function `computeSingleWCRT` is likewise stable under extra fuel. -/
theorem computeSingleWCRT_fuel_add (bus : CANBus) (idx : Nat) (fuel : Nat) (r : Rat)
    (h : computeSingleWCRT bus idx fuel = some r) (k : Nat) :
    computeSingleWCRT bus idx (fuel + k) = some r := by
  unfold computeSingleWCRT getWaitingTime at h ⊢
  cases hw : waitLoop bus idx fuel (getMaxBlockingTime bus idx) with
  | none => rw [hw] at h; simp at h
  | some wt =>
    rw [hw] at h
    rw [waitLoop_fuel_add bus idx fuel _ wt hw k]
    exact h


/-- Scenario B with the two priorities exchanged: the higher-priority slot
now has the short period. -/
def busBswap : CANBus := ⟨0, [⟨2, 2, 5⟩, ⟨1, 2, 20⟩]⟩

/-- A single message with period 0, as stored by the unvalidated constructor. -/
def busDeg : CANBus := ⟨0, [mkMessage 1 1 0]⟩

/-- A degenerate two-message set: duplicate priorities, a negative
transmission time and a zero period, all accepted by construction. -/
def busDup : CANBus := ⟨0, [mkMessage 1 (-1) 0, mkMessage 1 2 5]⟩

/-- C3: the spec claims the single-message Scenario A (priority 1,
transmission time 1, period 10, tau 0) yields WCRT 1.0; the code's
blocking term includes the message itself, so the analyzer actually
returns 2.0. -/
theorem scenarioA_claimed_value_false : computeSingleWCRT busA 0 3 ≠ some 1 := by
  have h : computeSingleWCRT busA 0 3 = some 2 := by
    norm_num [computeSingleWCRT, getWaitingTime, waitLoop, interference, getMaxBlockingTime,
      maxD0, msgAt, busA, ceil_as_floor]
  rw [h]
  intro hc
  simp at hc

/-- C3 (amended): for the Scenario A instance the analyzer converges (for
any sufficient fuel) to waiting time 1 = its own blocking time and reports
WCRT 2.0, schedulable. -/
theorem scenarioA_code_value :
    getMaxBlockingTime busA 0 = 1 ∧ ∀ k, computeSingleWCRT busA 0 (3 + k) = some 2 := by
  constructor
  · decide
  · intro k
    rw [show 3 + k = 3 + k from rfl]
    apply computeSingleWCRT_fuel_add
    norm_num [computeSingleWCRT, getWaitingTime, waitLoop, interference, getMaxBlockingTime,
      maxD0, msgAt, busA, ceil_as_floor]

/-- C1: the spec claims Scenario B gives WCRT 2.0 for the higher-priority
message, WCRT 4.0 for the lower one, with a zero blocking term for the
lower-priority message; the code's `priority >= current` comparison
matches the message itself, so none of the three values is what the code
computes. -/
theorem scenarioB_claimed_values_false :
    ¬ (computeSingleWCRT busB 0 3 = some 2 ∧ computeSingleWCRT busB 1 3 = some 4 ∧
      getMaxBlockingTime busB 1 = 0) := by
  rintro ⟨h1, -, -⟩
  have h : computeSingleWCRT busB 0 3 = some 4 := by
    norm_num [computeSingleWCRT, getWaitingTime, waitLoop, interference, getMaxBlockingTime,
      maxD0, msgAt, busB, ceil_as_floor]
  rw [h] at h1
  simp at h1

/-- C1 (amended): in Scenario B the blocking term of each message includes
its own transmission time (2 for both), the higher-priority message has
WCRT 4.0 and the lower-priority one has WCRT 6.0, both schedulable. -/
theorem scenarioB_code_values :
    getMaxBlockingTime busB 0 = 2 ∧ getMaxBlockingTime busB 1 = 2 ∧
      (∀ k, computeSingleWCRT busB 0 (3 + k) = some 4) ∧
      (∀ k, computeSingleWCRT busB 1 (3 + k) = some 6) := by
  refine ⟨by decide, by decide, fun k => ?_, fun k => ?_⟩
  · apply computeSingleWCRT_fuel_add
    norm_num [computeSingleWCRT, getWaitingTime, waitLoop, interference, getMaxBlockingTime,
      maxD0, msgAt, busB, ceil_as_floor]
  · apply computeSingleWCRT_fuel_add
    norm_num [computeSingleWCRT, getWaitingTime, waitLoop, interference, getMaxBlockingTime,
      maxD0, msgAt, busB, ceil_as_floor]

/-- C2: at the failing input diff = 1, T = 1, u = 1/10 the canonical
Metropolis rule of the spec accepts (u < exp(-diff/T)), but the code's
test `100000 * u < u * exp(-diff / T)` rejects: the code never accepts a
worsening candidate at positive temperature. -/
theorem acceptance_rule_divergence :
    metropolisAccept (1/10) 1 1 ∧ ¬ saAccept 100000 (1/10) 1 1 := by
  have hexp1 : Real.exp 1 < 2.7182818286 := Real.exp_one_lt_d9
  have hpos : (0 : Real) < Real.exp 1 := Real.exp_pos 1
  constructor
  · unfold metropolisAccept
    push_cast
    rw [show -(1 : Real) / 1 = -1 by norm_num, Real.exp_neg]
    have hinv : (0 : Real) < (Real.exp 1)⁻¹ := inv_pos.mpr hpos
    have hcancel : Real.exp 1 * (Real.exp 1)⁻¹ = 1 := mul_inv_cancel₀ (ne_of_gt hpos)
    nlinarith [hexp1, hpos, hinv, hcancel]
  · unfold saAccept
    push_cast
    rw [show -(1 : Real) / 1 = -1 by norm_num]
    have hlt : Real.exp (-1) < 1 := Real.exp_lt_one_iff.mpr (by norm_num)
    have hp : (0 : Real) < Real.exp (-1) := Real.exp_pos _
    intro hcon
    nlinarith [hlt, hp, hcon]

/-- C4: whenever the interference computed from the current waiting-time
iterate plus the message's own transmission time exceeds its period, the
loop returns the sentinel `some 0` at once, independently of how much
fuel (how many further iterations) remains. -/
theorem unschedulable_exit_immediate (bus : CANBus) (idx : Nat) (wt : Rat)
    (h : ((msgAt bus idx).period : Rat) <
      interference bus idx wt + (msgAt bus idx).trans_time) :
    ∀ fuel, waitLoop bus idx (fuel + 1) wt = some 0 := by
  intro fuel
  rw [waitLoop, if_pos h]

/-- C4 witness: a concrete iterate of the swapped Scenario B instance
triggers the not-schedulable exit with one unit of fuel. -/
theorem unschedulable_exit_immediate_witness :
    (((msgAt busBswap 0).period : Rat) <
      interference busBswap 0 2 + (msgAt busBswap 0).trans_time) ∧
    waitLoop busBswap 0 1 2 = some 0 := by
  have h : ((msgAt busBswap 0).period : Rat) <
      interference busBswap 0 2 + (msgAt busBswap 0).trans_time := by
    norm_num [interference, getMaxBlockingTime, maxD0, msgAt, busBswap, ceil_as_floor]
  exact ⟨h, unschedulable_exit_immediate busBswap 0 2 h 0⟩

/-- C6: constructing a message with period 0 is not detected as a failure:
the constructor stores the degenerate value and the analyzer silently
proceeds, returning its ordinary sentinel results. -/
theorem construction_claim_false :
    (mkMessage 1 1 0).period = 0 ∧ getWaitingTime busDeg 0 1 = some 0 ∧
      computeSingleWCRT busDeg 0 1 = some (-1) := by
  refine ⟨by decide, ?_, ?_⟩
  · norm_num [getWaitingTime, waitLoop, interference, getMaxBlockingTime, maxD0, msgAt,
      busDeg, mkMessage]
  · norm_num [computeSingleWCRT, getWaitingTime, waitLoop, interference, getMaxBlockingTime,
      maxD0, msgAt, busDeg, mkMessage]

/-- C6 (amended): construction performs no validation at all — duplicate
priorities, a negative transmission time and a zero period are all stored
as-is, and the analysis proceeds with the degenerate values without any
failure being surfaced. -/
theorem construction_accepts_degenerate :
    (mkMessage 1 (-1) 0).trans_time = -1 ∧ (mkMessage 1 (-1) 0).period = 0 ∧
      (mkMessage 1 (-1) 0).priority = (mkMessage 1 2 5).priority ∧
      computeSingleWCRT busDup 0 2 = some (-1) := by
  refine ⟨by decide, by decide, by decide, ?_⟩
  norm_num [computeSingleWCRT, getWaitingTime, waitLoop, interference, getMaxBlockingTime,
    maxD0, msgAt, busDup, mkMessage]

/-- The strictly-higher-priority messages interfering with the message at
`idx` (smaller priority value). -/
def hpList (bus : CANBus) (idx : Nat) : List CANMessage :=
  bus.messages.filter (fun m => decide (m.priority < (msgAt bus idx).priority))

/-- The interference summand contributed by one higher-priority message
for the waiting-time iterate `wt`. -/
def hpTerm (bus : CANBus) (wt : Rat) (m : CANMessage) : Rat :=
  m.trans_time * ((⌈(wt + bus.tau) / (m.period : Rat)⌉ : Int) : Rat)

/-- Unfolding of `interference` in terms of `hpList` and `hpTerm`. -/
theorem interference_def (bus : CANBus) (idx : Nat) (wt : Rat) :
    interference bus idx wt =
      getMaxBlockingTime bus idx + ((hpList bus idx).map (hpTerm bus wt)).sum := rfl

/-- The starting value of a left max-fold bounds it from below. -/
theorem le_foldl_max_init : ∀ (l : List Rat) (a : Rat), a ≤ l.foldl max a := by
  intro l
  induction l with
  | nil => intro a; exact le_refl a
  | cons x xs ih =>
    intro a
    exact le_trans (le_max_left a x) (ih (max a x))

/-- Every member of a list bounds its left max-fold from below. -/
theorem le_foldl_max_mem :
    ∀ (l : List Rat) (a x : Rat), x ∈ l → x ≤ l.foldl max a := by
  intro l
  induction l with
  | nil => intro a x hx; simp at hx
  | cons y ys ih =>
    intro a x hx
    rcases List.mem_cons.mp hx with rfl | hx
    · exact le_trans (le_max_right a x) (le_foldl_max_init ys (max a x))
    · exact ih (max a y) x hx

/-- Every member of a list is at most its Python-style max-with-default. -/
theorem le_maxD0 (l : List Rat) (x : Rat) (hx : x ∈ l) : x ≤ maxD0 l := by
  cases l with
  | nil => simp at hx
  | cons y ys =>
    rcases List.mem_cons.mp hx with rfl | hx
    · exact le_foldl_max_init ys x
    · exact le_foldl_max_mem ys y x hx

/-- A valid index yields a member of the message list. -/
theorem msgAt_mem (bus : CANBus) (idx : Nat) (hidx : idx < bus.messages.length) :
    msgAt bus idx ∈ bus.messages := by
  rw [msgAt, List.getD_eq_getElem _ _ hidx]
  exact List.getElem_mem hidx

/-- The blocking maximum ranges over the message itself, so it is at least
its own transmission time. -/
theorem own_trans_le_block (bus : CANBus) (idx : Nat)
    (hidx : idx < bus.messages.length) :
    (msgAt bus idx).trans_time ≤ getMaxBlockingTime bus idx := by
  apply le_maxD0
  apply List.mem_map_of_mem
  apply List.mem_filter.mpr
  exact ⟨msgAt_mem bus idx hidx, by simp⟩

/-- With positive transmission times the blocking term is positive. -/
theorem block_pos (bus : CANBus) (idx : Nat) (hidx : idx < bus.messages.length)
    (hval : ∀ m ∈ bus.messages, 0 < m.trans_time ∧ 0 < m.period) :
    0 < getMaxBlockingTime bus idx :=
  lt_of_lt_of_le ((hval _ (msgAt_mem bus idx hidx)).1) (own_trans_le_block bus idx hidx)

/-- Higher-priority messages are messages. -/
theorem hpList_sub (bus : CANBus) (idx : Nat) (m : CANMessage)
    (hm : m ∈ hpList bus idx) : m ∈ bus.messages :=
  (List.mem_filter.mp hm).1

/-- Interference summands are non-negative at non-negative iterates. -/
theorem hpTerm_nonneg (bus : CANBus) (idx : Nat) (wt : Rat)
    (hval : ∀ m ∈ bus.messages, 0 < m.trans_time ∧ 0 < m.period)
    (htau : 0 ≤ bus.tau) (hwt : 0 ≤ wt) :
    ∀ m ∈ hpList bus idx, 0 ≤ hpTerm bus wt m := by
  intro m hm
  obtain ⟨ht, hp⟩ := hval m (hpList_sub bus idx m hm)
  apply mul_nonneg (le_of_lt ht)
  have : (0 : Rat) ≤ (wt + bus.tau) / (m.period : Rat) :=
    div_nonneg (add_nonneg hwt htau) (by exact_mod_cast le_of_lt hp)
  exact_mod_cast Int.ceil_nonneg this

/-- The interference of a non-negative iterate is at least the blocking
term. -/
theorem block_le_interference (bus : CANBus) (idx : Nat) (wt : Rat)
    (hval : ∀ m ∈ bus.messages, 0 < m.trans_time ∧ 0 < m.period)
    (htau : 0 ≤ bus.tau) (hwt : 0 ≤ wt) :
    getMaxBlockingTime bus idx ≤ interference bus idx wt := by
  rw [interference_def]
  have hsum : 0 ≤ ((hpList bus idx).map (hpTerm bus wt)).sum := by
    apply List.sum_nonneg
    intro x hx
    obtain ⟨m, hm, rfl⟩ := List.mem_map.mp hx
    exact hpTerm_nonneg bus idx wt hval htau hwt m hm
  linarith

/-- Interference summands are monotone in the iterate. -/
theorem hpTerm_mono (bus : CANBus) (idx : Nat) (a b : Rat)
    (hval : ∀ m ∈ bus.messages, 0 < m.trans_time ∧ 0 < m.period)
    (hab : a ≤ b) :
    ∀ m ∈ hpList bus idx, hpTerm bus a m ≤ hpTerm bus b m := by
  intro m hm
  obtain ⟨ht, hp⟩ := hval m (hpList_sub bus idx m hm)
  have hpq : (0 : Rat) < (m.period : Rat) := by exact_mod_cast hp
  apply mul_le_mul_of_nonneg_left _ (le_of_lt ht)
  have hdiv : (a + bus.tau) / (m.period : Rat) ≤ (b + bus.tau) / (m.period : Rat) :=
    (div_le_div_iff_of_pos_right hpq).mpr (by linarith)
  exact_mod_cast Int.ceil_mono hdiv

/-- Interference is monotone in the iterate. -/
theorem interference_mono (bus : CANBus) (idx : Nat) (a b : Rat)
    (hval : ∀ m ∈ bus.messages, 0 < m.trans_time ∧ 0 < m.period)
    (hab : a ≤ b) :
    interference bus idx a ≤ interference bus idx b := by
  rw [interference_def, interference_def]
  have := List.sum_le_sum (hpTerm_mono bus idx a b hval hab)
  linarith

/-- Termwise order with a uniform gap for changed terms lifts to list sums. -/
theorem sum_gap (δ : Rat) (hδ : 0 ≤ δ) :
    ∀ (l : List CANMessage) (f g : CANMessage → Rat),
      (∀ m ∈ l, f m ≤ g m) → (∀ m ∈ l, f m ≠ g m → f m + δ ≤ g m) →
      ((l.map f).sum = (l.map g).sum ∨ (l.map f).sum + δ ≤ (l.map g).sum) := by
  intro l
  induction l with
  | nil => intro f g _ _; left; rfl
  | cons m rest ih =>
    intro f g hle hgap
    have hlem : f m ≤ g m := hle m (by simp)
    have htail := ih f g (fun x hx => hle x (by simp [hx]))
      (fun x hx h => hgap x (by simp [hx]) h)
    by_cases hm : f m = g m
    · rcases htail with heq | hlt
      · left; simp [List.map_cons, List.sum_cons, hm, heq]
      · right; simp only [List.map_cons, List.sum_cons]; linarith
    · have hgm := hgap m (by simp) hm
      have htle : ((rest.map f).sum ≤ (rest.map g).sum) := by
        rcases htail with heq | hlt
        · exact le_of_eq heq
        · linarith
      right; simp only [List.map_cons, List.sum_cons]; linarith

/-- Between two ordered iterates the interference either does not move or
jumps by at least the smallest higher-priority transmission time. -/
theorem interference_gap (bus : CANBus) (idx : Nat) (δ a b : Rat)
    (hval : ∀ m ∈ bus.messages, 0 < m.trans_time ∧ 0 < m.period)
    (hδpos : 0 < δ) (hδle : ∀ m ∈ hpList bus idx, δ ≤ m.trans_time)
    (hab : a ≤ b) :
    interference bus idx a = interference bus idx b ∨
      interference bus idx a + δ ≤ interference bus idx b := by
  have hle := hpTerm_mono bus idx a b hval hab
  have hgap : ∀ m ∈ hpList bus idx, hpTerm bus a m ≠ hpTerm bus b m →
      hpTerm bus a m + δ ≤ hpTerm bus b m := by
    intro m hm hne
    obtain ⟨ht, hp⟩ := hval m (hpList_sub bus idx m hm)
    have hpq : (0 : Rat) < (m.period : Rat) := by exact_mod_cast hp
    have hdiv : (a + bus.tau) / (m.period : Rat) ≤ (b + bus.tau) / (m.period : Rat) :=
      (div_le_div_iff_of_pos_right hpq).mpr (by linarith)
    have hceil : ⌈(a + bus.tau) / (m.period : Rat)⌉ ≤ ⌈(b + bus.tau) / (m.period : Rat)⌉ :=
      Int.ceil_mono hdiv
    have hceilne : ⌈(a + bus.tau) / (m.period : Rat)⌉ ≠ ⌈(b + bus.tau) / (m.period : Rat)⌉ := by
      intro hc
      exact hne (by rw [hpTerm, hpTerm, hc])
    have hceilsucc : ⌈(a + bus.tau) / (m.period : Rat)⌉ + 1 ≤
        ⌈(b + bus.tau) / (m.period : Rat)⌉ := by omega
    have hcast : ((⌈(a + bus.tau) / (m.period : Rat)⌉ : Int) : Rat) + 1 ≤
        ((⌈(b + bus.tau) / (m.period : Rat)⌉ : Int) : Rat) := by exact_mod_cast hceilsucc
    rw [hpTerm, hpTerm]
    have hδt : δ ≤ m.trans_time := hδle m hm
    nlinarith [hcast, ht, hδt]
  rcases sum_gap δ (le_of_lt hδpos) (hpList bus idx) (hpTerm bus a) (hpTerm bus b)
    hle hgap with heq | hlt
  · left; rw [interference_def, interference_def, heq]
  · right; rw [interference_def, interference_def]; linarith

/-- The smallest transmission time of a list of messages, with default 1. -/
def minTrans : List CANMessage → Rat
  | [] => 1
  | m :: rest => min m.trans_time (minTrans rest)

/-- The minimum `minTrans` is positive on lists of positive transmission times. -/
theorem minTrans_pos : ∀ (l : List CANMessage),
    (∀ m ∈ l, 0 < m.trans_time) → 0 < minTrans l := by
  intro l
  induction l with
  | nil => intro _; norm_num [minTrans]
  | cons m rest ih =>
    intro h
    rw [minTrans]
    exact lt_min (h m (by simp)) (ih (fun x hx => h x (by simp [hx])))

/-- The minimum `minTrans` bounds every member's transmission time from below. -/
theorem minTrans_le : ∀ (l : List CANMessage) (m : CANMessage), m ∈ l →
    minTrans l ≤ m.trans_time := by
  intro l
  induction l with
  | nil => intro m hm; simp at hm
  | cons x rest ih =>
    intro m hm
    rcases List.mem_cons.mp hm with rfl | hm
    · rw [minTrans]; exact min_le_left _ _
    · rw [minTrans]; exact le_trans (min_le_right _ _) (ih m hm)

/-- The initial iterate (the blocking time) satisfies the gap property:
either it is already a fixed point or the first interference jumps by at
least the smallest higher-priority transmission time. -/
theorem gap_init (bus : CANBus) (idx : Nat) (δ : Rat)
    (hidx : idx < bus.messages.length)
    (hval : ∀ m ∈ bus.messages, 0 < m.trans_time ∧ 0 < m.period)
    (htau : 0 ≤ bus.tau)
    (hδ : δ = minTrans (hpList bus idx)) :
    interference bus idx (getMaxBlockingTime bus idx) = getMaxBlockingTime bus idx ∨
      getMaxBlockingTime bus idx + δ ≤
        interference bus idx (getMaxBlockingTime bus idx) := by
  have hb : 0 < getMaxBlockingTime bus idx := block_pos bus idx hidx hval
  cases hhp : hpList bus idx with
  | nil => left; rw [interference_def, hhp]; simp
  | cons m rest =>
    right
    have hm : m ∈ hpList bus idx := by rw [hhp]; simp
    obtain ⟨ht, hp⟩ := hval m (hpList_sub bus idx m hm)
    have hpq : (0 : Rat) < (m.period : Rat) := by exact_mod_cast hp
    have hdivpos : 0 < (getMaxBlockingTime bus idx + bus.tau) / (m.period : Rat) :=
      div_pos (by linarith) hpq
    have hceil : 1 ≤ ⌈(getMaxBlockingTime bus idx + bus.tau) / (m.period : Rat)⌉ :=
      Int.one_le_ceil_iff.mpr hdivpos
    have hterm : m.trans_time ≤ hpTerm bus (getMaxBlockingTime bus idx) m := by
      rw [hpTerm]
      have : (1 : Rat) ≤ ((⌈(getMaxBlockingTime bus idx + bus.tau) /
          (m.period : Rat)⌉ : Int) : Rat) := by exact_mod_cast hceil
      nlinarith [ht, this]
    have hmem : hpTerm bus (getMaxBlockingTime bus idx) m ∈
        ((hpList bus idx).map (hpTerm bus (getMaxBlockingTime bus idx))) :=
      List.mem_map_of_mem _ hm
    have hsum : hpTerm bus (getMaxBlockingTime bus idx) m ≤
        ((hpList bus idx).map (hpTerm bus (getMaxBlockingTime bus idx))).sum := by
      apply List.single_le_sum _ _ hmem
      intro x hx
      obtain ⟨m', hm', rfl⟩ := List.mem_map.mp hx
      exact hpTerm_nonneg bus idx _ hval htau (le_of_lt hb) m' hm'
    have hδm : δ ≤ m.trans_time := by rw [hδ]; exact minTrans_le _ m hm
    rw [interference_def]
    linarith

/-- Fuel sufficiency for the fixed-point loop: from any iterate with the
gap property and enough fuel for the remaining distance to the deadline,
the loop returns. -/
theorem waitLoop_total (bus : CANBus) (idx : Nat) (δ : Rat) (hδpos : 0 < δ)
    (hgapstep : ∀ a b : Rat, a ≤ b →
      interference bus idx a = interference bus idx b ∨
        interference bus idx a + δ ≤ interference bus idx b) :
    ∀ (n : Nat) (wt : Rat),
      (interference bus idx wt = wt ∨ wt + δ ≤ interference bus idx wt) →
      ((msgAt bus idx).period : Rat) - (msgAt bus idx).trans_time - wt < n * δ →
      (waitLoop bus idx (n + 1) wt).isSome := by
  intro n
  induction n with
  | zero =>
    intro wt hgap hmeas
    have hwtle : wt ≤ interference bus idx wt := by
      rcases hgap with h | h
      · exact le_of_eq h.symm
      · linarith
    have hexit : ((msgAt bus idx).period : Rat) <
        interference bus idx wt + (msgAt bus idx).trans_time := by
      norm_num at hmeas
      linarith
    rw [waitLoop, if_pos hexit]
    rfl
  | succ n ih =>
    intro wt hgap hmeas
    by_cases hexit : ((msgAt bus idx).period : Rat) <
        interference bus idx wt + (msgAt bus idx).trans_time
    · rw [waitLoop, if_pos hexit]; rfl
    · by_cases hconv : wt = interference bus idx wt
      · rw [waitLoop, if_neg hexit, if_pos hconv]; rfl
      · have hjump : wt + δ ≤ interference bus idx wt := by
          rcases hgap with h | h
          · exact absurd h.symm hconv
          · exact h
        rw [waitLoop, if_neg hexit, if_neg hconv]
        apply ih
        · rcases hgapstep wt (interference bus idx wt) (by linarith) with h | h
          · left; exact h.symm
          · right; linarith
        · push_neg at hexit
          push_cast at hmeas ⊢
          linarith

/-- The waiting-time iterates of the analyzer: start at the blocking time,
repeatedly apply the interference map. -/
def iterWT (bus : CANBus) (idx : Nat) (k : Nat) : Rat :=
  (fun w => interference bus idx w)^[k] (getMaxBlockingTime bus idx)

/-- Successor unfolding of the waiting-time iterates. -/
theorem iterWT_succ (bus : CANBus) (idx : Nat) (k : Nat) :
    iterWT bus idx (k + 1) = interference bus idx (iterWT bus idx k) :=
  Function.iterate_succ_apply' _ _ _

/-- C8: for valid input (positive transmission times and periods, distinct
priorities, non-negative tau) the waiting-time iterates are monotonically
non-decreasing and the fixed-point loop returns — via its convergence or
its not-schedulable exit — after finitely many steps. -/
theorem fixed_point_loop_terminates (bus : CANBus) (idx : Nat)
    (hidx : idx < bus.messages.length)
    (hval : ∀ m ∈ bus.messages, 0 < m.trans_time ∧ 0 < m.period)
    (htau : 0 ≤ bus.tau)
    (hdist : bus.messages.Pairwise (fun m1 m2 => m1.priority ≠ m2.priority)) :
    (∀ k, iterWT bus idx k ≤ iterWT bus idx (k + 1)) ∧
      ∃ fuel r, getWaitingTime bus idx fuel = some r := by
  have hδpos : 0 < minTrans (hpList bus idx) :=
    minTrans_pos _ (fun m hm => (hval m (hpList_sub bus idx m hm)).1)
  have hδle : ∀ m ∈ hpList bus idx, minTrans (hpList bus idx) ≤ m.trans_time :=
    fun m hm => minTrans_le _ m hm
  have hgapstep : ∀ a b : Rat, a ≤ b →
      interference bus idx a = interference bus idx b ∨
        interference bus idx a + minTrans (hpList bus idx) ≤ interference bus idx b :=
    fun a b hab => interference_gap bus idx _ a b hval hδpos hδle hab
  have hinit := gap_init bus idx _ hidx hval htau rfl
  have hGap : ∀ k, interference bus idx (iterWT bus idx k) = iterWT bus idx k ∨
      iterWT bus idx k + minTrans (hpList bus idx) ≤
        interference bus idx (iterWT bus idx k) := by
    intro k
    induction k with
    | zero =>
      rcases hinit with h | h
      · left; exact h
      · right; exact h
    | succ k ihk =>
      have hle : iterWT bus idx k ≤ interference bus idx (iterWT bus idx k) := by
        rcases ihk with h | h
        · exact le_of_eq h.symm
        · linarith
      rcases hgapstep (iterWT bus idx k) (interference bus idx (iterWT bus idx k)) hle
        with h | h
      · rw [iterWT_succ]
        left; exact h.symm
      · rw [iterWT_succ]
        right; exact h
  constructor
  · intro k
    rw [iterWT_succ]
    rcases hGap k with h | h
    · exact le_of_eq h.symm
    · linarith
  · obtain ⟨n, hn⟩ := exists_nat_gt ((((msgAt bus idx).period : Rat) -
      (msgAt bus idx).trans_time - getMaxBlockingTime bus idx) / minTrans (hpList bus idx))
    have hmeas : ((msgAt bus idx).period : Rat) - (msgAt bus idx).trans_time -
        getMaxBlockingTime bus idx < n * minTrans (hpList bus idx) := by
      rw [div_lt_iff hδpos] at hn
      linarith
    have hsome := waitLoop_total bus idx _ hδpos hgapstep n
      (getMaxBlockingTime bus idx) hinit hmeas
    obtain ⟨r, hr⟩ := Option.isSome_iff_exists.mp hsome
    exact ⟨n + 1, r, hr⟩

/-- C8 witness: the Scenario A instance satisfies the validity hypotheses
and hence its analysis terminates with monotone iterates. -/
theorem fixed_point_loop_terminates_witness :
    (∀ k, iterWT busA 0 k ≤ iterWT busA 0 (k + 1)) ∧
      ∃ fuel r, getWaitingTime busA 0 fuel = some r := by
  apply fixed_point_loop_terminates
  · decide
  · decide
  · decide
  · simp [busA]

/-- Any value the fixed-point loop returns, starting from an iterate at
least the blocking time, is either the `0` sentinel from the
not-schedulable exit or a converged fixed point that is at least the
blocking time and respects the deadline. -/
theorem waitLoop_result_classify (bus : CANBus) (idx : Nat)
    (hidx : idx < bus.messages.length)
    (hval : ∀ m ∈ bus.messages, 0 < m.trans_time ∧ 0 < m.period)
    (htau : 0 ≤ bus.tau) :
    ∀ fuel wt r, getMaxBlockingTime bus idx ≤ wt →
      waitLoop bus idx fuel wt = some r →
      r = 0 ∨ (getMaxBlockingTime bus idx ≤ r ∧ r = interference bus idx r ∧
        r + (msgAt bus idx).trans_time ≤ ((msgAt bus idx).period : Rat)) := by
  have hb0 : 0 ≤ getMaxBlockingTime bus idx := le_of_lt (block_pos bus idx hidx hval)
  intro fuel
  induction fuel with
  | zero => intro wt r hwt h; simp [waitLoop] at h
  | succ n ih =>
    intro wt r hwt h
    rw [waitLoop] at h
    by_cases hexit : ((msgAt bus idx).period : Rat) <
        interference bus idx wt + (msgAt bus idx).trans_time
    · rw [if_pos hexit] at h
      left
      simpa using h.symm
    · rw [if_neg hexit] at h
      by_cases hconv : wt = interference bus idx wt
      · rw [if_pos hconv] at h
        have hwr : wt = r := by simpa using h
        right
        refine ⟨hwr ▸ hwt, ?_, ?_⟩
        · rw [← hwr]; exact hconv
        · push_neg at hexit
          rw [← hwr, hconv]
          exact hexit
      · rw [if_neg hconv] at h
        exact ih (interference bus idx wt) r
          (block_le_interference bus idx wt hval htau (le_trans hb0 hwt)) h

/-- C10: the blocking maximum's `priority >= current` comparison matches
the analyzed message itself, so the blocking term is at least that
message's own (positive) transmission time; consequently every value the
analyzer returns is either the `0` not-schedulable sentinel or a strictly
positive converged fixed point within the deadline — the caller's
`wt == 0` test cannot misclassify a genuine result. -/
theorem sentinel_zero_sound (bus : CANBus) (idx : Nat)
    (hidx : idx < bus.messages.length)
    (hval : ∀ m ∈ bus.messages, 0 < m.trans_time ∧ 0 < m.period)
    (htau : 0 ≤ bus.tau) :
    (msgAt bus idx).trans_time ≤ getMaxBlockingTime bus idx ∧
    ∀ fuel r, getWaitingTime bus idx fuel = some r →
      r = 0 ∨ (0 < r ∧ r = interference bus idx r ∧
        r + (msgAt bus idx).trans_time ≤ ((msgAt bus idx).period : Rat)) := by
  have hb : 0 < getMaxBlockingTime bus idx := block_pos bus idx hidx hval
  refine ⟨own_trans_le_block bus idx hidx, ?_⟩
  intro fuel r h
  rcases waitLoop_result_classify bus idx hidx hval htau fuel
    (getMaxBlockingTime bus idx) r (le_refl _) h with h0 | ⟨hge, hfix, hdl⟩
  · left; exact h0
  · right; exact ⟨lt_of_lt_of_le hb hge, hfix, hdl⟩

/-- C10 witness: the Scenario A instance satisfies the hypotheses, so its
sentinel classification is sound. -/
theorem sentinel_zero_sound_witness :
    (msgAt busA 0).trans_time ≤ getMaxBlockingTime busA 0 ∧
    ∀ fuel r, getWaitingTime busA 0 fuel = some r →
      r = 0 ∨ (0 < r ∧ r = interference busA 0 r ∧
        r + (msgAt busA 0).trans_time ≤ ((msgAt busA 0).period : Rat)) := by
  apply sentinel_zero_sound
  · decide
  · decide
  · decide

/-- The per-index contribution kept by the schedulable-sum: the response
time when the analysis returned one, dropped when it reported `-1`. -/
def schedKeep (bus : CANBus) (fuel : Nat) (i : Nat) : Option Rat :=
  (computeSingleWCRT bus i fuel).bind (fun r => if r < 0 then none else some r)

/-- The predicate counted by `unschedCount`. -/
def unschedFlag (bus : CANBus) (fuel : Nat) (i : Nat) : Bool :=
  match computeSingleWCRT bus i fuel with
  | some r => decide (r < 0)
  | none => false

/-- Unfolding of `totalAux` over any index list on which every
per-message analysis returns a value. -/
theorem totalAux_spec (bus : CANBus) (fuel : Nat) :
    ∀ (l : List Nat) (t : Rat) (ns : Nat),
      (∀ i ∈ l, (computeSingleWCRT bus i fuel).isSome) →
      totalAux bus fuel l t ns =
        some (t + ((l.filterMap (schedKeep bus fuel)).sum),
          ns + l.countP (unschedFlag bus fuel)) := by
  intro l
  induction l with
  | nil => intro t ns _; simp [totalAux]
  | cons i rest ih =>
    intro t ns h
    obtain ⟨r, hr⟩ := Option.isSome_iff_exists.mp (h i (by simp))
    have hrest : ∀ j ∈ rest, (computeSingleWCRT bus j fuel).isSome := by
      intro j hj; exact h j (by simp [hj])
    by_cases h0 : r < 0
    · rw [totalAux, hr]
      show (if r < 0 then totalAux bus fuel rest t (ns + 1)
        else totalAux bus fuel rest (t + r) ns) = _
      rw [if_pos h0, ih t (ns + 1) hrest]
      simp only [List.filterMap_cons, List.countP_cons, schedKeep, unschedFlag, hr,
        Option.some_bind, if_pos h0]
      have : (decide (r < 0)) = true := by simpa using h0
      rw [this]
      simp only [if_true]
      have : ns + 1 + List.countP (unschedFlag bus fuel) rest =
          ns + (List.countP (unschedFlag bus fuel) rest + 1) := by omega
      rw [this]
    · rw [totalAux, hr]
      show (if r < 0 then totalAux bus fuel rest t (ns + 1)
        else totalAux bus fuel rest (t + r) ns) = _
      rw [if_neg h0, ih (t + r) ns hrest]
      simp only [List.filterMap_cons, List.countP_cons, schedKeep, unschedFlag, hr,
        Option.some_bind, if_neg h0]
      have : (decide (r < 0)) = false := by simpa using h0
      rw [this]
      simp [List.sum_cons, add_assoc]

/-- Restatement of `schedSum` through `schedKeep`. -/
theorem schedSum_eq (bus : CANBus) (fuel : Nat) :
    schedSum bus fuel =
      ((List.range bus.messages.length).filterMap (schedKeep bus fuel)).sum := rfl

/-- Restatement of `unschedCount` through `unschedFlag`. -/
theorem unschedCount_eq (bus : CANBus) (fuel : Nat) :
    unschedCount bus fuel =
      (List.range bus.messages.length).countP (unschedFlag bus fuel) := rfl

/-- C5: when every per-message analysis returns, `get_cost` returns
exactly (sum of the schedulable messages' WCRTs) + penalty * (number of
unschedulable messages), and its flag is true iff every per-message
analysis reported schedulable (a non-negative response time). -/
theorem get_cost_spec (bus : CANBus) (seq : Option (List Int)) (penalty : Rat) (fuel : Nat)
    (h : ∀ i < (applySeq bus seq).messages.length,
      (computeSingleWCRT (applySeq bus seq) i fuel).isSome) :
    getCost bus seq penalty fuel =
      some (schedSum (applySeq bus seq) fuel +
        (unschedCount (applySeq bus seq) fuel) * penalty,
        unschedCount (applySeq bus seq) fuel == 0) ∧
    ((unschedCount (applySeq bus seq) fuel == 0) = true ↔
      ∀ i < (applySeq bus seq).messages.length,
        ∃ r, computeSingleWCRT (applySeq bus seq) i fuel = some r ∧ 0 ≤ r) := by
  have htot : computeTotalWCRT (applySeq bus seq) fuel =
      some (schedSum (applySeq bus seq) fuel, unschedCount (applySeq bus seq) fuel) := by
    rw [computeTotalWCRT, totalAux_spec (applySeq bus seq) fuel _ 0 0
      (by intro i hi; exact h i (List.mem_range.mp hi))]
    rw [schedSum_eq, unschedCount_eq]
    norm_num
  constructor
  · rw [getCost, htot]
  · rw [unschedCount_eq]
    constructor
    · intro hz i hi
      have hcount : (List.range (applySeq bus seq).messages.length).countP
          (unschedFlag (applySeq bus seq) fuel) = 0 := by
        simpa using hz
      have hall := List.countP_eq_zero.mp hcount
      obtain ⟨r, hr⟩ := Option.isSome_iff_exists.mp (h i hi)
      refine ⟨r, hr, ?_⟩
      have hflag := hall i (List.mem_range.mpr hi)
      rw [unschedFlag, hr] at hflag
      simpa using hflag
    · intro hall
      have : (List.range (applySeq bus seq).messages.length).countP
          (unschedFlag (applySeq bus seq) fuel) = 0 := by
        apply List.countP_eq_zero.mpr
        intro i hi
        obtain ⟨r, hr, hrn⟩ := hall i (List.mem_range.mp hi)
        rw [unschedFlag, hr]
        simpa using not_lt.mpr hrn
      simpa using this

/-- C5 witness: the Scenario A instance with penalty 7 and fuel 3. -/
theorem get_cost_spec_witness :
    getCost busA none 7 3 =
      some (schedSum (applySeq busA none) 3 +
        (unschedCount (applySeq busA none) 3) * 7,
        unschedCount (applySeq busA none) 3 == 0) ∧
    ((unschedCount (applySeq busA none) 3 == 0) = true ↔
      ∀ i < (applySeq busA none).messages.length,
        ∃ r, computeSingleWCRT (applySeq busA none) i 3 = some r ∧ 0 ≤ r) := by
  apply get_cost_spec
  intro i hi
  have hi0 : i = 0 := by
    simpa [applySeq, busA] using hi
  subst hi0
  have h : computeSingleWCRT (applySeq busA none) 0 3 = some 2 := by
    norm_num [computeSingleWCRT, getWaitingTime, waitLoop, interference, getMaxBlockingTime,
      maxD0, msgAt, busA, applySeq, ceil_as_floor]
  rw [h]
  rfl

/-- Priority updates keep the number of messages. -/
theorem updatePriorities_length :
    ∀ (ms : List CANMessage) (s : List Int),
      (updatePriorities ms s).length = ms.length := by
  intro ms
  induction ms with
  | nil => intro s; cases s <;> rfl
  | cons m rest ih =>
    intro s
    cases s with
    | nil => rfl
    | cons p ps => simp [updatePriorities, ih]

/-- A second priority update with a sequence covering the whole list
overwrites the first one completely. -/
theorem updatePriorities_override :
    ∀ (ms : List CANMessage) (s1 s2 : List Int), ms.length ≤ s2.length →
      updatePriorities (updatePriorities ms s1) s2 = updatePriorities ms s2 := by
  intro ms
  induction ms with
  | nil => intro s1 s2 _; cases s1 <;> rfl
  | cons m rest ih =>
    intro s1 s2 h
    cases s1 with
    | nil => rfl
    | cons p ps =>
      cases s2 with
      | nil => simp at h
      | cons q qs =>
        simp only [updatePriorities, List.cons.injEq]
        exact ⟨trivial, ih ps qs (by simpa using h)⟩

/-- Swapping two positions keeps the length of a sequence. -/
theorem swapList_length (seq : List Int) (i j : Nat) :
    (swapList seq i j).length = seq.length := by
  simp [swapList]

/-- C7: in every annealing iteration (any reachable state, any random
draw), the cost of the best-so-far sequence is non-increasing, and best
changes only to the iteration's swap candidate, which is then fully
schedulable and of strictly lower cost. -/
theorem best_cost_nonincreasing (tau penalty cooling : Rat) (fuel : Nat)
    (ch : Nat × Nat × Rat) (s s' : SAState)
    (hstep : saStep tau penalty cooling fuel ch s = some s')
    (hcur : s.msgs.length ≤ s.current.length)
    (hbest : s.msgs.length ≤ s.best.length) :
    ∃ cb cb', seqCost tau penalty fuel s.msgs s.best = some cb ∧
      seqCost tau penalty fuel s.msgs s'.best = some cb' ∧
      cb' ≤ cb ∧
      (s'.best = s.best ∨
        (s'.best = swapList s.current ch.1 ch.2.1 ∧
          seqAllSched tau fuel s.msgs s'.best = some true ∧ cb' < cb)) := by
  have hm2 : updatePriorities (updatePriorities s.msgs s.current)
      (swapList s.current ch.1 ch.2.1) =
      updatePriorities s.msgs (swapList s.current ch.1 ch.2.1) :=
    updatePriorities_override s.msgs s.current _ (by rw [swapList_length]; exact hcur)
  have hm3len : s.msgs.length ≤
      (updatePriorities (updatePriorities s.msgs s.current)
        (swapList s.current ch.1 ch.2.1)).length := by
    rw [updatePriorities_length, updatePriorities_length]
  have hlen12 : (updatePriorities s.msgs s.current).length ≤ s.best.length := by
    rw [updatePriorities_length]; exact hbest
  have hm3 : updatePriorities (updatePriorities (updatePriorities s.msgs s.current)
      (swapList s.current ch.1 ch.2.1)) s.best = updatePriorities s.msgs s.best := by
    rw [updatePriorities_override _ _ _ hlen12,
      updatePriorities_override s.msgs s.current s.best hbest]
  simp only [saStep] at hstep
  cases h1 : computeTotalWCRT ⟨tau, updatePriorities s.msgs s.current⟩ fuel with
  | none => rw [h1] at hstep; simp at hstep
  | some c1 =>
    obtain ⟨t1, ns1⟩ := c1
    rw [h1] at hstep
    cases h2 : computeTotalWCRT ⟨tau, updatePriorities (updatePriorities s.msgs s.current)
        (swapList s.current ch.1 ch.2.1)⟩ fuel with
    | none => rw [h2] at hstep; simp at hstep
    | some c2 =>
      obtain ⟨t2, ns2⟩ := c2
      rw [h2] at hstep
      cases h3 : computeTotalWCRT ⟨tau, updatePriorities (updatePriorities
          (updatePriorities s.msgs s.current) (swapList s.current ch.1 ch.2.1))
            s.best⟩ fuel with
      | none => rw [h3] at hstep; simp at hstep
      | some c3 =>
        obtain ⟨t3, ns3⟩ := c3
        rw [h3] at hstep
        simp only [Option.some.injEq] at hstep
        have hbest' : s'.best =
            (if ns2 = 0 ∧ t2 + ns2 * penalty < t3 + ns3 * penalty
              then swapList s.current ch.1 ch.2.1 else s.best) := by
          rw [← hstep]
        have hcb : seqCost tau penalty fuel s.msgs s.best = some (t3 + ns3 * penalty) := by
          rw [seqCost, ← hm3, h3]; rfl
        by_cases hcond : ns2 = 0 ∧ t2 + ns2 * penalty < t3 + ns3 * penalty
        · refine ⟨t3 + ns3 * penalty, t2 + ns2 * penalty, hcb, ?_, le_of_lt hcond.2, ?_⟩
          · rw [hbest', if_pos hcond, seqCost, ← hm2, h2]; rfl
          · right
            refine ⟨by rw [hbest', if_pos hcond], ?_, hcond.2⟩
            rw [hbest', if_pos hcond, seqAllSched, ← hm2, h2]
            simp [hcond.1]
        · refine ⟨t3 + ns3 * penalty, t3 + ns3 * penalty, hcb, ?_, le_refl _, ?_⟩
          · rw [hbest', if_neg hcond]
            exact hcb
          · left
            rw [hbest', if_neg hcond]

/-- C7 witness: a trivial step on an empty message set with equal
sequences; all three cost evaluations return 0 and best is unchanged. -/
theorem best_cost_nonincreasing_witness :
    ∃ cb cb', seqCost 0 150 1 [] [] = some cb ∧
      seqCost 0 150 1 (SAState.mk [] [] [] 2).msgs
        ((SAState.mk [] [] [] 2).best) = some cb' ∧ cb' ≤ cb ∧
      ((SAState.mk [] [] [] 2).best = [] ∨
        ((SAState.mk [] [] [] 2).best = swapList [] 0 1 ∧
          seqAllSched 0 1 [] ((SAState.mk [] [] [] 2).best) = some true ∧ cb' < cb)) := by
  have hstep : saStep 0 150 (1/2) 1 (0, 1, 0) (SAState.mk [] [] [] 2) =
      some (SAState.mk [] [] [] 1) := by
    simp only [saStep]
    norm_num [swapList, updatePriorities, computeTotalWCRT, totalAux]
  have h := best_cost_nonincreasing 0 150 (1/2) 1 (0, 1, 0)
    (SAState.mk [] [] [] 2) (SAState.mk [] [] [] 1) hstep (by simp) (by simp)
  simpa [swapList, updatePriorities] using h

/-- C9: when the searcher is started with `T_start = T_end` the guard
`T > T_end` fails before the first iteration, so the loop body never
runs and the initial assignment — the messages' priorities in
construction order — is returned unchanged. -/
theorem equal_temperatures_zero_iterations (bus : CANBus) (T cooling : Rat)
    (fuel : Nat) (trace : List (Nat × Nat × Rat)) :
    simulatedAnnealing bus T T cooling fuel trace =
      some (bus.messages.map (fun m => m.priority)) := by
  rw [simulatedAnnealing, saLoop.eq_def]
  simp
